import Mathlib

/-!
Verification of the double-base scalar multiplication subsystem
(src/src/backend/serial/scalar_mul/vartime_double_base.rs).

The file embeds the three entry points mul, mul_timed and mul_byz_score over
an abstract additive commutative group G: the spec treats the point
representation layer (doubling, mixed add/sub, representation conversions)
as an external collaborator consumed through contracts, so all point
representations are modelled as G itself, conversions as the identity,
doubling as addition with itself, and table entries as odd multiples.
Scalars are modelled by their numeric value.
-/

namespace VartimeDoubleBase

/-- Strong induction on naturals, used for the recursion of the NAF recoder. -/
lemma strong_ind (P : ℕ → Prop) (h : ∀ k, (∀ m, m < k → P m) → P k) : ∀ k, P k := by
  intro k
  have H : ∀ n, ∀ m, m < n → P m := by
    intro n
    induction n with
    | zero => intro m hm; omega
    | succ n IH =>
      intro m hm
      exact h m (fun j hj => IH j (by omega))
  exact h k (H k)

/-- Modelled from the spec: the order of the Ed25519 basepoint group, the
modulus of the scalar type (an external collaborator of this subsystem). -/
def basepointOrder : ℕ := 2 ^ 252 + 27742317777372353535851937790883648493

/-- Modelled from the spec: the recoding loop of the scalar collaborator's
width-w non-adjacent form (spec 4.1).  The residual k is consumed from the
least-significant bit: an even residual emits digit 0 and shifts; an odd
residual looks at its low w bits d: if d is below half the window it is
emitted and subtracted, otherwise d - 2^w (negative) is emitted and the
borrow is repaid.  The first argument is fuel; the residual strictly
decreases every step, so fuel k suffices to consume residual k. -/
def nafGo (w : ℕ) : ℕ → ℕ → List ℤ
  | 0, _ => []
  | fuel + 1, k =>
    if k = 0 then []
    else if k % 2 = 0 then 0 :: nafGo w fuel (k / 2)
    else if k % 2 ^ w < 2 ^ (w - 1) then
      ((k % 2 ^ w : ℕ) : ℤ) :: nafGo w fuel ((k - k % 2 ^ w) / 2)
    else
      (((k % 2 ^ w : ℕ) : ℤ) - ((2 ^ w : ℕ) : ℤ)) :: nafGo w fuel ((k + (2 ^ w - k % 2 ^ w)) / 2)

/-- Modelled from the spec: Scalar.non_adjacent_form(w) (spec 4.1 and 6),
code outside src/.  Digits beyond the list length are zero; the source
stores the digits in a 256-entry array. -/
def non_adjacent_form (s w : ℕ) : List ℤ := nafGo w s s

/-- Digit of the NAF encoding of scalar s at position i (0 beyond the end),
matching an access a_naf[i] into the source's 256-entry digit array. -/
def nafDigit (s w i : ℕ) : ℤ := (non_adjacent_form s w).getD i 0

lemma nafDigit_def (s w i : ℕ) : nafDigit s w i = (non_adjacent_form s w).getD i 0 := rfl

/-- Value of a little-endian signed-digit sequence: sum of digit i times 2^i. -/
def nafVal (l : List ℤ) : ℤ := l.foldr (fun d acc => d + 2 * acc) 0

lemma two_pow_split (w : ℕ) (hw : 1 ≤ w) : 2 ^ w = 2 * 2 ^ (w - 1) := by
  conv_lhs => rw [show w = (w - 1) + 1 from by omega]
  rw [pow_succ]
  ring

lemma mod_two_pow_odd (w k : ℕ) (hw : 1 ≤ w) (hk : k % 2 = 1) : k % 2 ^ w % 2 = 1 := by
  rw [Nat.mod_mod_of_dvd _ (dvd_pow_self 2 (by omega))]
  exact hk

lemma mod_two_pow_lt (w k : ℕ) : k % 2 ^ w < 2 ^ w :=
  Nat.mod_lt _ (pow_pos (by norm_num) w)

lemma two_pow_pred_even (w : ℕ) (hw : 2 ≤ w) : 2 ^ (w - 1) % 2 = 0 := by
  have h : (2 : ℕ) ∣ 2 ^ (w - 1) := dvd_pow_self 2 (by omega)
  omega

lemma sub_mod_dvd (w k : ℕ) : 2 ^ w ∣ k - k % 2 ^ w := by
  have h := Nat.div_add_mod k (2 ^ w)
  exact ⟨k / 2 ^ w, by omega⟩

lemma lo_val_lt (w k : ℕ) (hw : 1 ≤ w) (hk : k % 2 = 1) : (k - k % 2 ^ w) / 2 < k := by
  have h1 := mod_two_pow_odd w k hw hk
  omega

lemma hi_val_lt (w k : ℕ) (hw : 2 ≤ w) (hk : k % 2 = 1)
    (hhi : 2 ^ (w - 1) ≤ k % 2 ^ w) : (k + (2 ^ w - k % 2 ^ w)) / 2 < k := by
  have h1 := mod_two_pow_odd w k (by omega) hk
  have h2 := mod_two_pow_lt w k
  have h3 := two_pow_split w (by omega)
  have h4 := two_pow_pred_even w hw
  have h5 := Nat.mod_le k (2 ^ w)
  omega

lemma lo_val_even (w k : ℕ) (hw : 2 ≤ w) : ((k - k % 2 ^ w) / 2) % 2 = 0 := by
  obtain ⟨q, hq⟩ := sub_mod_dvd w k
  have h4 : 2 ^ w = 4 * 2 ^ (w - 2) := by
    conv_lhs => rw [show w = (w - 2) + 1 + 1 from by omega]
    rw [pow_succ, pow_succ]
    ring
  have hq' : k - k % 2 ^ w = 4 * (2 ^ (w - 2) * q) := by rw [hq, h4]; ring
  omega

lemma hi_val_even (w k : ℕ) (hw : 2 ≤ w) (hk : k % 2 = 1)
    (_hhi : 2 ^ (w - 1) ≤ k % 2 ^ w) : ((k + (2 ^ w - k % 2 ^ w)) / 2) % 2 = 0 := by
  obtain ⟨q, hq⟩ := sub_mod_dvd w k
  have h4 : 2 ^ w = 4 * 2 ^ (w - 2) := by
    conv_lhs => rw [show w = (w - 2) + 1 + 1 from by omega]
    rw [pow_succ, pow_succ]
    ring
  have hq' : k - k % 2 ^ w = 4 * (2 ^ (w - 2) * q) := by rw [hq, h4]; ring
  have hdle : k % 2 ^ w ≤ k := Nat.mod_le k _
  have hdlt : k % 2 ^ w < 2 ^ w := mod_two_pow_lt w k
  omega

/-- The fuel argument of the recoder is irrelevant as long as it dominates
the residual. -/
lemma nafGo_congr (w : ℕ) (hw : 2 ≤ w) :
    ∀ k f₁ f₂, k ≤ f₁ → k ≤ f₂ → nafGo w f₁ k = nafGo w f₂ k := by
  refine strong_ind (fun k => ∀ f₁ f₂, k ≤ f₁ → k ≤ f₂ → nafGo w f₁ k = nafGo w f₂ k) ?_
  intro k IH f₁ f₂ h₁ h₂
  rcases eq_or_ne k 0 with rfl | hk0
  · have e : ∀ f, nafGo w f 0 = [] := by intro f; cases f <;> simp [nafGo]
    rw [e, e]
  · obtain ⟨g₁, rfl⟩ : ∃ g, f₁ = g + 1 := ⟨f₁ - 1, by omega⟩
    obtain ⟨g₂, rfl⟩ : ∃ g, f₂ = g + 1 := ⟨f₂ - 1, by omega⟩
    simp only [nafGo]
    rw [if_neg hk0, if_neg hk0]
    rcases Nat.mod_two_eq_zero_or_one k with hp | hp
    · rw [if_pos hp, if_pos hp]
      congr 1
      exact IH (k / 2) (by omega) g₁ g₂ (by omega) (by omega)
    · rw [if_neg (by omega : ¬k % 2 = 0), if_neg (by omega : ¬k % 2 = 0)]
      by_cases hlo : k % 2 ^ w < 2 ^ (w - 1)
      · rw [if_pos hlo, if_pos hlo]
        congr 1
        have hlt := lo_val_lt w k (by omega) hp
        exact IH _ hlt g₁ g₂ (by omega) (by omega)
      · rw [if_neg hlo, if_neg hlo]
        congr 1
        have hlt := hi_val_lt w k hw hp (by omega)
        exact IH _ hlt g₁ g₂ (by omega) (by omega)

lemma naf_zero (w : ℕ) : non_adjacent_form 0 w = [] := rfl

lemma naf_even (w k : ℕ) (hw : 2 ≤ w) (hk0 : k ≠ 0) (hk : k % 2 = 0) :
    non_adjacent_form k w = 0 :: non_adjacent_form (k / 2) w := by
  obtain ⟨m, rfl⟩ : ∃ m, k = m + 1 := ⟨k - 1, by omega⟩
  show nafGo w (m + 1) (m + 1) = _
  simp only [nafGo]
  rw [if_neg hk0, if_pos hk]
  congr 1
  exact nafGo_congr w hw _ _ _ (by omega) le_rfl

lemma naf_odd_lo (w k : ℕ) (hw : 2 ≤ w) (hk : k % 2 = 1)
    (hlo : k % 2 ^ w < 2 ^ (w - 1)) :
    non_adjacent_form k w =
      ((k % 2 ^ w : ℕ) : ℤ) :: non_adjacent_form ((k - k % 2 ^ w) / 2) w := by
  obtain ⟨m, rfl⟩ : ∃ m, k = m + 1 := ⟨k - 1, by omega⟩
  show nafGo w (m + 1) (m + 1) = _
  simp only [nafGo]
  rw [if_neg (by omega : ¬m + 1 = 0), if_neg (by omega : ¬(m + 1) % 2 = 0), if_pos hlo]
  congr 1
  have hlt := lo_val_lt w (m + 1) (by omega) hk
  exact nafGo_congr w hw _ _ _ (by omega) le_rfl

lemma naf_odd_hi (w k : ℕ) (hw : 2 ≤ w) (hk : k % 2 = 1)
    (hhi : 2 ^ (w - 1) ≤ k % 2 ^ w) :
    non_adjacent_form k w =
      (((k % 2 ^ w : ℕ) : ℤ) - ((2 ^ w : ℕ) : ℤ)) ::
        non_adjacent_form ((k + (2 ^ w - k % 2 ^ w)) / 2) w := by
  obtain ⟨m, rfl⟩ : ∃ m, k = m + 1 := ⟨k - 1, by omega⟩
  show nafGo w (m + 1) (m + 1) = _
  simp only [nafGo]
  rw [if_neg (by omega : ¬m + 1 = 0), if_neg (by omega : ¬(m + 1) % 2 = 0),
    if_neg (by omega : ¬(m + 1) % 2 ^ w < 2 ^ (w - 1))]
  congr 1
  have hlt := hi_val_lt w (m + 1) hw hk hhi
  exact nafGo_congr w hw _ _ _ (by omega) le_rfl

/-- Round trip of the recoding: the signed-digit value of the width-w NAF of
k is k itself. -/
lemma naf_val_eq (w : ℕ) (hw : 2 ≤ w) : ∀ k, nafVal (non_adjacent_form k w) = (k : ℤ) := by
  refine strong_ind (fun k => nafVal (non_adjacent_form k w) = (k : ℤ)) ?_
  intro k IH
  rcases eq_or_ne k 0 with rfl | hk0
  · simp [naf_zero, nafVal]
  rcases Nat.mod_two_eq_zero_or_one k with hp | hp
  · rw [naf_even w k hw hk0 hp]
    have hrec := IH (k / 2) (by omega)
    simp only [nafVal] at hrec ⊢
    rw [List.foldr_cons, hrec]
    omega
  · by_cases hlo : k % 2 ^ w < 2 ^ (w - 1)
    · rw [naf_odd_lo w k hw hp hlo]
      have hrec := IH _ (lo_val_lt w k (by omega) hp)
      have h1 := mod_two_pow_odd w k (by omega) hp
      have hdle := Nat.mod_le k (2 ^ w)
      simp only [nafVal] at hrec ⊢
      rw [List.foldr_cons, hrec]
      omega
    · rw [naf_odd_hi w k hw hp (by omega)]
      have hrec := IH _ (hi_val_lt w k hw hp (by omega))
      have h1 := mod_two_pow_odd w k (by omega) hp
      have h2 := mod_two_pow_lt w k
      have h3 := two_pow_split w (by omega)
      have hdle := Nat.mod_le k (2 ^ w)
      simp only [nafVal] at hrec ⊢
      rw [List.foldr_cons, hrec]
      omega

/-- Every digit of the width-w NAF is zero, or odd with magnitude at most
2^(w-1) - 1. -/
lemma naf_digits_shape (w : ℕ) (hw : 2 ≤ w) :
    ∀ k, ∀ d ∈ non_adjacent_form k w,
      d ≠ 0 → d.natAbs % 2 = 1 ∧ d.natAbs ≤ 2 ^ (w - 1) - 1 := by
  refine strong_ind
    (fun k => ∀ d ∈ non_adjacent_form k w,
      d ≠ 0 → d.natAbs % 2 = 1 ∧ d.natAbs ≤ 2 ^ (w - 1) - 1) ?_
  intro k IH d hd hd0
  rcases eq_or_ne k 0 with rfl | hk0
  · rw [naf_zero] at hd
    simp at hd
  rcases Nat.mod_two_eq_zero_or_one k with hp | hp
  · rw [naf_even w k hw hk0 hp] at hd
    rcases List.mem_cons.mp hd with rfl | hd'
    · exact absurd rfl hd0
    · exact IH (k / 2) (by omega) d hd' hd0
  · by_cases hlo : k % 2 ^ w < 2 ^ (w - 1)
    · rw [naf_odd_lo w k hw hp hlo] at hd
      rcases List.mem_cons.mp hd with rfl | hd'
      · have h1 := mod_two_pow_odd w k (by omega) hp
        constructor <;> [skip; skip] <;> omega
      · exact IH _ (lo_val_lt w k (by omega) hp) d hd' hd0
    · rw [naf_odd_hi w k hw hp (by omega)] at hd
      rcases List.mem_cons.mp hd with rfl | hd'
      · have h1 := mod_two_pow_odd w k (by omega) hp
        have h2 := mod_two_pow_lt w k
        have h3 := two_pow_split w (by omega)
        have h4 := two_pow_pred_even w hw
        constructor <;> omega
      · exact IH _ (hi_val_lt w k hw hp (by omega)) d hd' hd0

lemma naf_head_zero_of_even (w k : ℕ) (hw : 2 ≤ w) (hk : k % 2 = 0) :
    (non_adjacent_form k w).getD 0 0 = 0 := by
  rcases eq_or_ne k 0 with rfl | hk0
  · simp [naf_zero]
  · rw [naf_even w k hw hk0 hk]
    simp

/-- Non-adjacency: a nonzero digit is followed by a zero digit. -/
lemma naf_nonadjacent (w : ℕ) (hw : 2 ≤ w) :
    ∀ k i, (non_adjacent_form k w).getD i 0 ≠ 0 →
      (non_adjacent_form k w).getD (i + 1) 0 = 0 := by
  refine strong_ind
    (fun k => ∀ i, (non_adjacent_form k w).getD i 0 ≠ 0 →
      (non_adjacent_form k w).getD (i + 1) 0 = 0) ?_
  intro k IH i hi
  rcases eq_or_ne k 0 with rfl | hk0
  · rw [naf_zero] at hi ⊢
    simp at hi
  rcases Nat.mod_two_eq_zero_or_one k with hp | hp
  · rw [naf_even w k hw hk0 hp] at hi ⊢
    cases i with
    | zero => simp at hi
    | succ j =>
      rw [List.getD_cons_succ] at hi ⊢
      exact IH (k / 2) (by omega) j hi
  · by_cases hlo : k % 2 ^ w < 2 ^ (w - 1)
    · rw [naf_odd_lo w k hw hp hlo] at hi ⊢
      cases i with
      | zero =>
        rw [List.getD_cons_succ]
        exact naf_head_zero_of_even w _ hw (lo_val_even w k hw)
      | succ j =>
        rw [List.getD_cons_succ] at hi ⊢
        exact IH _ (lo_val_lt w k (by omega) hp) j hi
    · rw [naf_odd_hi w k hw hp (by omega)] at hi ⊢
      cases i with
      | zero =>
        rw [List.getD_cons_succ]
        exact naf_head_zero_of_even w _ hw (hi_val_even w k hw hp (by omega))
      | succ j =>
        rw [List.getD_cons_succ] at hi ⊢
        exact IH _ (hi_val_lt w k hw hp (by omega)) j hi

/-- The NAF of a nonzero scalar is nonempty and ends in a nonzero digit. -/
lemma naf_last_nonzero (w : ℕ) (hw : 2 ≤ w) :
    ∀ k, k ≠ 0 → ∃ L, (non_adjacent_form k w).length = L + 1 ∧
      (non_adjacent_form k w).getD L 0 ≠ 0 := by
  refine strong_ind
    (fun k => k ≠ 0 → ∃ L, (non_adjacent_form k w).length = L + 1 ∧
      (non_adjacent_form k w).getD L 0 ≠ 0) ?_
  intro k IH hk0
  rcases Nat.mod_two_eq_zero_or_one k with hp | hp
  · rw [naf_even w k hw hk0 hp]
    obtain ⟨L, hL, hNZ⟩ := IH (k / 2) (by omega) (by omega)
    exact ⟨L + 1, by simp [hL], by rwa [List.getD_cons_succ]⟩
  · have h1 := mod_two_pow_odd w k (by omega) hp
    by_cases hlo : k % 2 ^ w < 2 ^ (w - 1)
    · rw [naf_odd_lo w k hw hp hlo]
      rcases eq_or_ne ((k - k % 2 ^ w) / 2) 0 with hv0 | hv0
      · refine ⟨0, by simp [hv0, naf_zero], ?_⟩
        rw [hv0, naf_zero]
        simp only [List.getD_cons_zero]
        omega
      · obtain ⟨L, hL, hNZ⟩ := IH _ (lo_val_lt w k (by omega) hp) hv0
        exact ⟨L + 1, by simp [hL], by rwa [List.getD_cons_succ]⟩
    · rw [naf_odd_hi w k hw hp (by omega)]
      have h2 := mod_two_pow_lt w k
      rcases eq_or_ne ((k + (2 ^ w - k % 2 ^ w)) / 2) 0 with hv0 | hv0
      · refine ⟨0, by simp [hv0, naf_zero], ?_⟩
        rw [hv0, naf_zero]
        simp only [List.getD_cons_zero]
        omega
      · obtain ⟨L, hL, hNZ⟩ := IH _ (hi_val_lt w k hw hp (by omega)) hv0
        exact ⟨L + 1, by simp [hL], by rwa [List.getD_cons_succ]⟩

lemma div2_le_of_le_two_mul (x m : ℕ) (h : x ≤ 2 * m) : x / 2 ≤ m := by omega

/-- Length bound: a scalar at most 2^n has a NAF of length at most n + 1
(the extra position absorbs the trailing carry). -/
lemma naf_length_le (w : ℕ) (hw : 2 ≤ w) :
    ∀ k n, k ≤ 2 ^ n → (non_adjacent_form k w).length ≤ n + 1 := by
  refine strong_ind (fun k => ∀ n, k ≤ 2 ^ n → (non_adjacent_form k w).length ≤ n + 1) ?_
  intro k IH n hkn
  rcases eq_or_ne k 0 with rfl | hk0
  · simp [naf_zero]
  rcases eq_or_ne k 1 with rfl | hk1
  · have hmod : 1 % 2 ^ w = 1 := by
      have h : 2 ^ 2 ≤ 2 ^ w := Nat.pow_le_pow_right (by norm_num) hw
      exact Nat.mod_eq_of_lt (by omega)
    have hlo : 1 % 2 ^ w < 2 ^ (w - 1) := by
      have h : 2 ^ 1 ≤ 2 ^ (w - 1) := Nat.pow_le_pow_right (by norm_num) (by omega)
      omega
    rw [naf_odd_lo w 1 hw rfl hlo, hmod]
    norm_num [naf_zero]
  have hk2 : 2 ≤ k := by omega
  have hn1 : 1 ≤ n := by
    rcases Nat.eq_zero_or_pos n with rfl | h
    · simp at hkn; omega
    · exact h
  have hsplit : 2 ^ n = 2 * 2 ^ (n - 1) := two_pow_split n (by omega)
  rcases Nat.mod_two_eq_zero_or_one k with hp | hp
  · rw [naf_even w k hw hk0 hp]
    have hr := IH (k / 2) (by omega) (n - 1) (by omega)
    simp only [List.length_cons]
    omega
  · have h1 := mod_two_pow_odd w k (by omega) hp
    by_cases hlo : k % 2 ^ w < 2 ^ (w - 1)
    · rw [naf_odd_lo w k hw hp hlo]
      have hlt := lo_val_lt w k (by omega) hp
      have hb : (k - k % 2 ^ w) / 2 ≤ 2 ^ (n - 1) := by omega
      have hr := IH _ hlt (n - 1) hb
      simp only [List.length_cons]
      omega
    · have h2 := mod_two_pow_lt w k
      have h4 := two_pow_pred_even w hw
      have hdle := Nat.mod_le k (2 ^ w)
      have hnw : w ≤ n := by
        by_contra hc
        push_neg at hc
        have h5 : 2 ^ n ≤ 2 ^ (w - 1) := Nat.pow_le_pow_right (by norm_num) (by omega)
        omega
      obtain ⟨q, hq⟩ := sub_mod_dvd w k
      have hdvd2 : 2 ^ w ∣ 2 ^ n := pow_dvd_pow 2 hnw
      have hsum : k + (2 ^ w - k % 2 ^ w) ≤ 2 ^ n := by
        have hlt2 : k - k % 2 ^ w < 2 ^ n := by omega
        have hd3 : 2 ^ w ∣ 2 ^ n - (k - k % 2 ^ w) := Nat.dvd_sub' hdvd2 ⟨q, hq⟩
        have hd4 : 2 ^ w ≤ 2 ^ n - (k - k % 2 ^ w) := Nat.le_of_dvd (by omega) hd3
        omega
      rw [hsplit] at hsum
      have hbv : (k + (2 ^ w - k % 2 ^ w)) / 2 ≤ 2 ^ (n - 1) :=
        div2_le_of_le_two_mul _ _ hsum
      have hr := IH _ (hi_val_lt w k hw hp (by omega)) (n - 1) hbv
      rw [naf_odd_hi w k hw hp (by omega)]
      simp only [List.length_cons]
      omega

/-- A getD access is either the default or an element of the list. -/
lemma getD_zero_or_mem : ∀ (l : List ℤ) (i : ℕ), l.getD i 0 = 0 ∨ l.getD i 0 ∈ l := by
  intro l
  induction l with
  | nil => intro i; left; simp
  | cons a l IH =>
    intro i
    cases i with
    | zero => right; simp
    | succ j =>
      rcases IH j with h | h
      · left; simpa [List.getD_cons_succ] using h
      · right
        rw [List.getD_cons_succ]
        exact List.mem_cons_of_mem _ h

/-- Digit-level form of the shape lemma. -/
lemma nafDigit_shape (s w i : ℕ) (hw : 2 ≤ w) (h : nafDigit s w i ≠ 0) :
    (nafDigit s w i).natAbs % 2 = 1 ∧ (nafDigit s w i).natAbs ≤ 2 ^ (w - 1) - 1 := by
  rw [nafDigit_def] at h ⊢
  rcases getD_zero_or_mem (non_adjacent_form s w) i with h0 | hm
  · exact absurd h0 h
  · exact naf_digits_shape w hw s _ hm h

lemma nafDigit_zero_scalar (w i : ℕ) : nafDigit 0 w i = 0 := by
  rw [nafDigit_def, naf_zero]
  simp

/-- Sum-of-digits form of the value of a digit list, over any range covering
the whole list. -/
lemma sum_getD_eq_nafVal (l : List ℤ) :
    ∀ n, l.length ≤ n → ∑ i in Finset.range n, l.getD i 0 * 2 ^ i = nafVal l := by
  induction l with
  | nil =>
    intro n _
    simp [nafVal]
  | cons d rest IH =>
    intro n hn
    rcases n with _ | m
    · simp at hn
    rw [Finset.sum_range_succ']
    simp only [List.getD_cons_succ, List.getD_cons_zero, pow_succ, pow_zero, mul_one]
    have hrw : ∀ i : ℕ, rest.getD i 0 * (2 ^ i * 2) = rest.getD i 0 * 2 ^ i * 2 := by
      intro i; ring
    rw [Finset.sum_congr rfl (fun i _ => hrw i), ← Finset.sum_mul]
    rw [IH m (by simpa using hn)]
    simp only [nafVal, List.foldr_cons]
    ring

section Group

variable {G : Type} [AddCommGroup G]

/-- Modelled from the spec: the odd-multiple chain of the windowed table
builder (spec 4.2), code outside src/ — D = double(P) is fixed, the running
entry starts at P and each subsequent entry adds D. -/
def oddMultiples (D : G) : G → ℕ → List G
  | _, 0 => []
  | cur, n + 1 => cur :: oddMultiples D (cur + D) n

/-- Modelled from the spec: build_table(P, w) (spec 4.2), a table of the odd
multiples 1P, 3P, ..., (2^(w-1)-1)P with 2^(w-2) entries. -/
def buildTable (P : G) (w : ℕ) : List G := oddMultiples (P + P) P (2 ^ (w - 2))

/-- Modelled from the spec: table lookup by odd digit magnitude m, stored at
slot m / 2 (window.rs select, code outside src/).  Out-of-range slots give
the identity here; the bound theorems show every lookup of mul is in range. -/
def tableSelect (tbl : List G) (m : ℕ) : G := tbl.getD (m / 2) 0

lemma oddMultiples_getD (D : G) :
    ∀ n cur j, j < n → (oddMultiples D cur n).getD j 0 = cur + j • D := by
  intro n
  induction n with
  | zero => intro cur j h; omega
  | succ m IH =>
    intro cur j hj
    cases j with
    | zero => simp [oddMultiples]
    | succ i =>
      simp only [oddMultiples, List.getD_cons_succ]
      rw [IH (cur + D) i (by omega), succ_nsmul]
      abel

lemma oddMultiples_length (D : G) : ∀ n cur, (oddMultiples D cur n).length = n := by
  intro n
  induction n with
  | zero => intro cur; rfl
  | succ m IH => intro cur; simp [oddMultiples, IH]

lemma buildTable_length (P : G) (w : ℕ) : (buildTable P w).length = 2 ^ (w - 2) :=
  oddMultiples_length _ _ _

/-- Table correctness: looking up an odd in-range magnitude m returns m • P. -/
lemma tableSelect_buildTable (P : G) (w m : ℕ) (hw : 2 ≤ w) (hm : m % 2 = 1)
    (hle : m ≤ 2 ^ (w - 1) - 1) : tableSelect (buildTable P w) m = m • P := by
  have hsplit : 2 ^ (w - 1) = 2 * 2 ^ (w - 2) := by
    conv_lhs => rw [show w - 1 = (w - 2) + 1 from by omega]
    rw [pow_succ]
    ring
  have hj : m / 2 < 2 ^ (w - 2) := by omega
  show (oddMultiples (P + P) P (2 ^ (w - 2))).getD (m / 2) 0 = m • P
  rw [oddMultiples_getD _ _ _ _ hj]
  have hsm : (m / 2) • (P + P) = (2 * (m / 2)) • P := by
    rw [smul_add, two_mul, add_nsmul]
  rw [hsm]
  have hmeq : m = 2 * (m / 2) + 1 := by omega
  conv_rhs => rw [hmeq]
  rw [add_nsmul, one_nsmul]
  abel

/-- Reference double-and-add scalar multiplication (spec 8: the independent
reference against which mul is checked), with the same fuel idiom as the
recoder. -/
def doubleAndAddGo (P : G) : ℕ → ℕ → G
  | 0, _ => 0
  | fuel + 1, n =>
    if n = 0 then 0
    else
      doubleAndAddGo P fuel (n / 2) + doubleAndAddGo P fuel (n / 2) +
        (if n % 2 = 1 then P else 0)

/-- Reference double-and-add computation of n • P. -/
def doubleAndAdd (n : ℕ) (P : G) : G := doubleAndAddGo P n n

lemma doubleAndAddGo_eq (P : G) : ∀ fuel n, n ≤ fuel → doubleAndAddGo P fuel n = n • P := by
  intro fuel
  induction fuel with
  | zero =>
    intro n h
    obtain rfl : n = 0 := by omega
    simp [doubleAndAddGo]
  | succ f IH =>
    intro n h
    rcases eq_or_ne n 0 with rfl | h0
    · simp [doubleAndAddGo]
    · simp only [doubleAndAddGo]
      rw [if_neg h0, IH (n / 2) (by omega)]
      rcases Nat.mod_two_eq_zero_or_one n with hp | hp
      · rw [if_neg (by omega)]
        have he : n / 2 + n / 2 = n := by omega
        rw [← add_nsmul, he, add_zero]
      · rw [if_pos hp]
        have he : n / 2 + n / 2 + 1 = n := by omega
        rw [← add_nsmul, ← succ_nsmul, he]

lemma doubleAndAdd_eq (n : ℕ) (P : G) : doubleAndAdd n P = n • P :=
  doubleAndAddGo_eq P n n le_rfl

/-- Embeds the starting-index scan of the source (lines 28-34 of
vartime_double_base.rs): j runs from the first argument down to 0, stopping
at the first index where either digit is nonzero; i ends at 0 if none is. -/
def findStart (da db : ℕ → ℤ) : ℕ → ℕ
  | 0 => 0
  | j + 1 => if da (j + 1) ≠ 0 ∨ db (j + 1) ≠ 0 then j + 1 else findStart da db j

/-- The starting index of the main loop of mul for scalars a and b. -/
def startIndex (a b : ℕ) : ℕ :=
  findStart (fun i => nafDigit a 5 i) (fun i => nafDigit b 8 i) 255

lemma findStart_le (da db : ℕ → ℤ) : ∀ n, findStart da db n ≤ n := by
  intro n
  induction n with
  | zero => exact le_rfl
  | succ m IH =>
    simp only [findStart]
    split
    · exact le_rfl
    · omega

lemma findStart_ge (da db : ℕ → ℤ) :
    ∀ n p, p ≤ n → (da p ≠ 0 ∨ db p ≠ 0) → p ≤ findStart da db n := by
  intro n
  induction n with
  | zero => intro p hp _; omega
  | succ m IH =>
    intro p hp hne
    simp only [findStart]
    split
    · exact hp
    · rename_i hcond
      push_neg at hcond
      have hpm : p ≤ m := by
        rcases Nat.lt_or_ge p (m + 1) with h | h
        · omega
        · exfalso
          obtain rfl : p = m + 1 := by omega
          rcases hne with h1 | h1
          · exact h1 hcond.1
          · exact h1 hcond.2
      exact IH p hpm hne

lemma findStart_above_zero (da db : ℕ → ℤ) :
    ∀ n j, findStart da db n < j → j ≤ n → da j = 0 ∧ db j = 0 := by
  intro n
  induction n with
  | zero => intro j h1 h2; omega
  | succ m IH =>
    intro j h1 h2
    simp only [findStart] at h1
    split at h1
    · omega
    · rename_i hcond
      push_neg at hcond
      rcases Nat.lt_or_ge j (m + 1) with h | h
      · exact IH j h1 (by omega)
      · obtain rfl : j = m + 1 := by omega
        exact hcond

lemma findStart_hit (da db : ℕ → ℤ) :
    ∀ n, (da (findStart da db n) ≠ 0 ∨ db (findStart da db n) ≠ 0) ∨
      findStart da db n = 0 := by
  intro n
  induction n with
  | zero => right; rfl
  | succ m IH =>
    simp only [findStart]
    split
    · rename_i hcond
      left
      exact hcond
    · exact IH

/-- The main loop of the source, running its body at indices i, i-1, ..., 0
(a do-while: the body always runs at least once). -/
def loopDown {S : Type} (step : S → ℕ → S) : S → ℕ → S
  | s, 0 => step s 0
  | s, i + 1 => loopDown step (step s (i + 1)) i

/-- One iteration of the main loop of mul (lines 40-60 of the source): the
accumulator is doubled, then combined with the table of A and the table of B
as directed by the signs of the two digits at index i.  All point
representation conversions are the identity in this model. -/
def mulStep (selA selB : ℕ → G) (da db : ℕ → ℤ) (r : G) (i : ℕ) : G :=
  let t := r + r
  let t1 :=
    if 0 < da i then t + selA (da i).toNat
    else if da i < 0 then t - selA (-da i).toNat
    else t
  if 0 < db i then t1 + selB (db i).toNat
  else if db i < 0 then t1 - selB (-db i).toNat
  else t1

/-- Embeds mul (lines 23-64 of vartime_double_base.rs): NAF-encode a with
window 5 and b with window 8, build the table of A, scan for the starting
index, then run the interleaved double-and-add loop from it down to 0
starting from the identity. -/
def mul (Bpt : G) (a : ℕ) (A : G) (b : ℕ) : G :=
  loopDown
    (mulStep (tableSelect (buildTable A 5)) (tableSelect (buildTable Bpt 8))
      (fun i => nafDigit a 5 i) (fun i => nafDigit b 8 i))
    0 (startIndex a b)

/-- One iteration of the instrumented loops of mul_timed and mul_byz_score
(lines 95-127 and 156-182 of the source): the same point computation as
mulStep, plus the iteration counter and the inefficiency counter that is
bumped in the else branch of each combine decision.  The state is
(accumulator, byzantine_counter, byzantine_inefficiency_counter). -/
def byzStep (selA selB : ℕ → G) (da db : ℕ → ℤ) (s : G × ℕ × ℕ) (i : ℕ) :
    G × ℕ × ℕ :=
  let t := s.1 + s.1
  let pa : G × ℕ :=
    if 0 < da i then (t + selA (da i).toNat, s.2.2)
    else if da i < 0 then (t - selA (-da i).toNat, s.2.2)
    else (t, s.2.2 + 1)
  let pb : G × ℕ :=
    if 0 < db i then (pa.1 + selB (db i).toNat, pa.2)
    else if db i < 0 then (pa.1 - selB (-db i).toNat, pa.2)
    else (pa.1, pa.2 + 1)
  (pb.1, s.2.1 + 1, pb.2)

/-- The shared instrumented loop of mul_timed and mul_byz_score, started
from the identity accumulator and zeroed counters. -/
def byzState (Bpt : G) (a : ℕ) (A : G) (b : ℕ) : G × ℕ × ℕ :=
  loopDown
    (byzStep (tableSelect (buildTable A 5)) (tableSelect (buildTable Bpt 8))
      (fun i => nafDigit a 5 i) (fun i => nafDigit b 8 i))
    (0, 0, 0) (startIndex a b)

/-- Embeds the point result of mul_timed (lines 67-132 of the source).  The
wall-clock Instant/Duration reads and the console printing of the source are
input/output instrumentation with no effect on the computed point and are
not modelled; the point and counter flow is byzState. -/
def mul_timed (Bpt : G) (a : ℕ) (A : G) (b : ℕ) : G := (byzState Bpt a A b).1

/-- Embeds mul_byz_score (lines 135-188 of the source): the instrumented
loop followed by score = 2 * byzantine_counter - byzantine_inefficiency_counter. -/
def mul_byz_score (Bpt : G) (a : ℕ) (A : G) (b : ℕ) : G × ℕ :=
  ((byzState Bpt a A b).1,
    2 * (byzState Bpt a A b).2.1 - (byzState Bpt a A b).2.2)

/-- Specification-side count of combine steps skipped on zero digits over
loop indices 0..n. -/
def skippedCount (a b n : ℕ) : ℕ :=
  ∑ j in Finset.range (n + 1),
    ((if nafDigit a 5 j = 0 then 1 else 0) + (if nafDigit b 8 j = 0 then 1 else 0))

/-- The instrumented loop body is the plain loop body on the point, the
iteration counter bumped by one, and the inefficiency counter bumped once
per zero digit. -/
lemma byzStep_eq (selA selB : ℕ → G) (da db : ℕ → ℤ) (s : G × ℕ × ℕ) (i : ℕ) :
    byzStep selA selB da db s i =
      (mulStep selA selB da db s.1 i, s.2.1 + 1,
        s.2.2 + ((if da i = 0 then 1 else 0) + (if db i = 0 then 1 else 0))) := by
  dsimp only [byzStep, mulStep]
  split_ifs with h1 h2 h3 h4 h5 h6 h7 h8 h9 h10 h11 h12 <;>
    simp only [Prod.mk.injEq, true_and, and_true] <;>
    omega

/-- Unrolling the instrumented loop: the point follows the plain loop, the
counter counts the i+1 iterations, the inefficiency counter accumulates the
zero-digit indicators over indices 0..i. -/
lemma loopDown_byz (selA selB : ℕ → G) (da db : ℕ → ℤ) :
    ∀ i (r : G) (c m : ℕ),
      loopDown (byzStep selA selB da db) (r, c, m) i =
        (loopDown (mulStep selA selB da db) r i, c + (i + 1),
          m + ∑ j in Finset.range (i + 1),
            ((if da j = 0 then 1 else 0) + (if db j = 0 then 1 else 0))) := by
  intro i
  induction i with
  | zero =>
    intro r c m
    simp [loopDown, byzStep_eq, Finset.sum_range_one]
  | succ i IH =>
    intro r c m
    show loopDown (byzStep selA selB da db) (byzStep selA selB da db (r, c, m) (i + 1)) i = _
    rw [byzStep_eq]
    dsimp only
    rw [IH]
    have hsum : ∑ j in Finset.range (i + 1 + 1),
        ((if da j = 0 then 1 else 0) + (if db j = 0 then 1 else 0)) =
        (∑ j in Finset.range (i + 1),
          ((if da j = 0 then 1 else 0) + (if db j = 0 then 1 else 0))) +
          ((if da (i + 1) = 0 then 1 else 0) + (if db (i + 1) = 0 then 1 else 0)) :=
      Finset.sum_range_succ _ _
    simp only [Prod.mk.injEq]
    refine ⟨rfl, by omega, by rw [hsum]; omega⟩

/-- Unrolling the plain loop when every body is a doubling plus an index
contribution. -/
lemma loopDown_sum (step : G → ℕ → G) (c : ℕ → G)
    (hstep : ∀ r i, step r i = r + r + c i) :
    ∀ i (r : G), loopDown step r i =
      2 ^ (i + 1) • r + ∑ j in Finset.range (i + 1), 2 ^ j • c j := by
  intro i
  induction i with
  | zero =>
    intro r
    show step r 0 = _
    rw [hstep]
    simp [Finset.sum_range_one, two_nsmul]
  | succ i IH =>
    intro r
    show loopDown step (step r (i + 1)) i = _
    rw [IH, hstep, Finset.sum_range_succ (fun j => 2 ^ j • c j) (i + 1)]
    have hp : (2 : ℕ) ^ (i + 1 + 1) = 2 ^ (i + 1) + 2 ^ (i + 1) := by
      rw [pow_succ]; ring
    rw [hp, smul_add, smul_add, add_nsmul]
    abel

/-- A single combine decision adds the signed multiple that the digit
directs, provided the digit is odd and within the table range. -/
lemma combine_eq (P : G) (w : ℕ) (hw : 2 ≤ w) (z : ℤ)
    (hz : z ≠ 0 → z.natAbs % 2 = 1 ∧ z.natAbs ≤ 2 ^ (w - 1) - 1) (t : G) :
    (if 0 < z then t + tableSelect (buildTable P w) z.toNat
     else if z < 0 then t - tableSelect (buildTable P w) (-z).toNat
     else t) = t + z • P := by
  rcases lt_trichotomy z 0 with h | h | h
  · rw [if_neg (by omega), if_pos h]
    obtain ⟨ho, hb⟩ := hz (by omega)
    rw [tableSelect_buildTable P w _ hw (by omega) (by omega), ← natCast_zsmul]
    have hcast : (((-z).toNat : ℕ) : ℤ) = -z := by omega
    rw [hcast, sub_eq_add_neg, ← neg_zsmul, neg_neg]
  · rw [if_neg (by omega), if_neg (by omega), h, zero_zsmul, add_zero]
  · rw [if_pos h]
    obtain ⟨ho, hb⟩ := hz (by omega)
    rw [tableSelect_buildTable P w _ hw (by omega) (by omega), ← natCast_zsmul]
    have hcast : ((z.toNat : ℕ) : ℤ) = z := by omega
    rw [hcast]

/-- The loop body of mul doubles and then adds the two digit-directed
multiples. -/
lemma mulStep_eq_add (A B' : G) (da db : ℕ → ℤ)
    (hda : ∀ i, da i ≠ 0 → (da i).natAbs % 2 = 1 ∧ (da i).natAbs ≤ 2 ^ 4 - 1)
    (hdb : ∀ i, db i ≠ 0 → (db i).natAbs % 2 = 1 ∧ (db i).natAbs ≤ 2 ^ 7 - 1)
    (r : G) (i : ℕ) :
    mulStep (tableSelect (buildTable A 5)) (tableSelect (buildTable B' 8)) da db r i =
      r + r + (da i • A + db i • B') := by
  dsimp only [mulStep]
  rw [combine_eq A 5 (by norm_num) (da i) (hda i) (r + r),
    combine_eq B' 8 (by norm_num) (db i) (hdb i) (r + r + da i • A)]
  abel

lemma nafDigit_shape5 (a : ℕ) :
    ∀ i, nafDigit a 5 i ≠ 0 →
      (nafDigit a 5 i).natAbs % 2 = 1 ∧ (nafDigit a 5 i).natAbs ≤ 2 ^ 4 - 1 :=
  fun i h => nafDigit_shape a 5 i (by norm_num) h

lemma nafDigit_shape8 (b : ℕ) :
    ∀ i, nafDigit b 8 i ≠ 0 →
      (nafDigit b 8 i).natAbs % 2 = 1 ∧ (nafDigit b 8 i).natAbs ≤ 2 ^ 7 - 1 :=
  fun i h => nafDigit_shape b 8 i (by norm_num) h

/-- Closed form of mul: the weighted digit sum over the loop range. -/
lemma mul_eq_loopSum (Bpt A : G) (a b : ℕ) :
    mul Bpt a A b = ∑ j in Finset.range (startIndex a b + 1),
      2 ^ j • (nafDigit a 5 j • A + nafDigit b 8 j • Bpt) := by
  unfold mul
  rw [loopDown_sum _
    (fun j => nafDigit a 5 j • A + nafDigit b 8 j • Bpt)
    (mulStep_eq_add A Bpt _ _ (nafDigit_shape5 a) (nafDigit_shape8 b))
    (startIndex a b) 0]
  rw [smul_zero, zero_add]

/-- Summing the weighted digits of a covered range against a point gives the
scalar multiple. -/
lemma sum_digits_smul (P : G) (s w : ℕ) (hw : 2 ≤ w) (n : ℕ)
    (hn : (non_adjacent_form s w).length ≤ n) :
    ∑ j in Finset.range n, 2 ^ j • (nafDigit s w j • P) = s • P := by
  have h1 : ∀ j, 2 ^ j • (nafDigit s w j • P) = (nafDigit s w j * 2 ^ j) • P := by
    intro j
    rw [← natCast_zsmul (nafDigit s w j • P) (2 ^ j), smul_smul]
    congr 1
    push_cast
    ring
  rw [Finset.sum_congr rfl (fun j _ => h1 j), ← Finset.sum_smul]
  have h2 : ∑ j in Finset.range n, nafDigit s w j * 2 ^ j = (s : ℤ) := by
    have h3 := sum_getD_eq_nafVal (non_adjacent_form s w) n hn
    rw [naf_val_eq w hw s] at h3
    simpa [nafDigit_def] using h3
  rw [h2, natCast_zsmul]

lemma basepointOrder_le : basepointOrder ≤ 2 ^ 253 := by
  norm_num [basepointOrder]

lemma naf_length_le_254 (s w : ℕ) (hw : 2 ≤ w) (hs : s < basepointOrder) :
    (non_adjacent_form s w).length ≤ 254 := by
  have h := naf_length_le w hw s 253 (by have := basepointOrder_le; omega)
  omega

/-- The starting-index scan reaches at least the top nonzero digit of either
scalar, so the loop range covers the whole encoding. -/
lemma startIndex_covers_a (a b : ℕ) (ha : (non_adjacent_form a 5).length ≤ 256) :
    (non_adjacent_form a 5).length ≤ startIndex a b + 1 := by
  rcases eq_or_ne a 0 with rfl | h0
  · rw [naf_zero]
    simp
  · obtain ⟨L, hL, hNZ⟩ := naf_last_nonzero 5 (by norm_num) a h0
    have hge : L ≤ startIndex a b :=
      findStart_ge _ _ 255 L (by omega) (Or.inl hNZ)
    omega

lemma startIndex_covers_b (a b : ℕ) (hb : (non_adjacent_form b 8).length ≤ 256) :
    (non_adjacent_form b 8).length ≤ startIndex a b + 1 := by
  rcases eq_or_ne b 0 with rfl | h0
  · rw [naf_zero]
    simp
  · obtain ⟨L, hL, hNZ⟩ := naf_last_nonzero 8 (by norm_num) b h0
    have hge : L ≤ startIndex a b :=
      findStart_ge _ _ 255 L (by omega) (Or.inr hNZ)
    omega

/-- Functional correctness of mul on reduced scalars: a • A + b • B. -/
lemma mul_eq_smul (Bpt A : G) (a b : ℕ)
    (ha : a < basepointOrder) (hb : b < basepointOrder) :
    mul Bpt a A b = a • A + b • Bpt := by
  have hlenA : (non_adjacent_form a 5).length ≤ startIndex a b + 1 :=
    startIndex_covers_a a b (by have := naf_length_le_254 a 5 (by norm_num) ha; omega)
  have hlenB : (non_adjacent_form b 8).length ≤ startIndex a b + 1 :=
    startIndex_covers_b a b (by have := naf_length_le_254 b 8 (by norm_num) hb; omega)
  rw [mul_eq_loopSum]
  have hsplit : ∀ j : ℕ, 2 ^ j • (nafDigit a 5 j • A + nafDigit b 8 j • Bpt) =
      2 ^ j • (nafDigit a 5 j • A) + 2 ^ j • (nafDigit b 8 j • Bpt) :=
    fun j => smul_add _ _ _
  rw [Finset.sum_congr rfl (fun j _ => hsplit j), Finset.sum_add_distrib,
    sum_digits_smul A a 5 (by norm_num) _ hlenA,
    sum_digits_smul Bpt b 8 (by norm_num) _ hlenB]

lemma two_le_basepointOrder : 2 ≤ basepointOrder := by
  norm_num [basepointOrder]

lemma startIndex_le_255 (a b : ℕ) : startIndex a b ≤ 255 :=
  findStart_le _ _ 255

lemma startIndex_zero_zero : startIndex 0 0 = 0 := by
  rcases findStart_hit (fun i => nafDigit 0 5 i) (fun i => nafDigit 0 8 i) 255 with h | h
  · rcases h with h | h <;> simp [nafDigit_zero_scalar] at h
  · exact h

lemma buildTable_getD (P : G) (w j : ℕ) (hj : j < 2 ^ (w - 2)) :
    (buildTable P w).getD j 0 = (2 * j + 1) • P := by
  show (oddMultiples (P + P) P (2 ^ (w - 2))).getD j 0 = _
  rw [oddMultiples_getD _ _ _ _ hj]
  have h : j • (P + P) = (2 * j) • P := by rw [smul_add, two_mul, add_nsmul]
  rw [h, add_nsmul, one_nsmul]
  exact add_comm P ((2 * j) • P)

lemma byzState_counter (Bpt A : G) (a b : ℕ) :
    (byzState Bpt a A b).2.1 = startIndex a b + 1 := by
  unfold byzState
  rw [loopDown_byz]
  simp

lemma byzState_skipped (Bpt A : G) (a b : ℕ) :
    (byzState Bpt a A b).2.2 = skippedCount a b (startIndex a b) := by
  unfold byzState skippedCount
  rw [loopDown_byz]
  simp

lemma byzState_point (Bpt A : G) (a b : ℕ) :
    (byzState Bpt a A b).1 = mul Bpt a A b := by
  unfold byzState
  rw [loopDown_byz]
  rfl

end Group

/-- C1: for scalars a, b reduced modulo the group order and every valid
group element A (one annihilated by the group order), mul returns
a·A + b·B, agreeing with the independent double-and-add reference; in
particular a=0,b=0 gives the identity, a=1,b=0 gives A, a=0,b=1 gives the
generator, and a = order-1, b=0 gives the additive inverse of A. -/
theorem mul_double_base_correct {G : Type} [AddCommGroup G] (Bpt A : G) (a b : ℕ)
    (ha : a < basepointOrder) (hb : b < basepointOrder)
    (hA : basepointOrder • A = 0) :
    mul Bpt a A b = doubleAndAdd a A + doubleAndAdd b Bpt ∧
    mul Bpt a A b = a • A + b • Bpt ∧
    mul Bpt 0 A 0 = 0 ∧
    mul Bpt 1 A 0 = A ∧
    mul Bpt 0 A 1 = Bpt ∧
    mul Bpt (basepointOrder - 1) A 0 = -A := by
  have h2 := two_le_basepointOrder
  refine ⟨?_, mul_eq_smul Bpt A a b ha hb, ?_, ?_, ?_, ?_⟩
  · rw [doubleAndAdd_eq, doubleAndAdd_eq]
    exact mul_eq_smul Bpt A a b ha hb
  · rw [mul_eq_smul Bpt A 0 0 (by omega) (by omega)]
    simp
  · rw [mul_eq_smul Bpt A 1 0 (by omega) (by omega)]
    simp
  · rw [mul_eq_smul Bpt A 0 1 (by omega) (by omega)]
    simp
  · rw [mul_eq_smul Bpt A (basepointOrder - 1) 0 (by omega) (by omega)]
    simp only [zero_smul, add_zero]
    have h3 : (basepointOrder - 1) • A + A = 0 := by
      rw [← succ_nsmul, show basepointOrder - 1 + 1 = basepointOrder from by omega]
      exact hA
    exact eq_neg_of_add_eq_zero_left h3

/-- Witness for C1 in the additive group of integers modulo the basepoint
order, at Bpt = 7, A = 5, a = 2, b = 3. -/
theorem mul_double_base_correct_witness :
    (2 < basepointOrder ∧ 3 < basepointOrder ∧
      basepointOrder • (5 : ZMod basepointOrder) = 0) ∧
    (mul (7 : ZMod basepointOrder) 2 5 3 = doubleAndAdd 2 5 + doubleAndAdd 3 7 ∧
      mul (7 : ZMod basepointOrder) 2 5 3 = 2 • (5 : ZMod basepointOrder) + 3 • 7 ∧
      mul (7 : ZMod basepointOrder) 0 5 0 = 0 ∧
      mul (7 : ZMod basepointOrder) 1 5 0 = 5 ∧
      mul (7 : ZMod basepointOrder) 0 5 1 = 7 ∧
      mul (7 : ZMod basepointOrder) (basepointOrder - 1) 5 0 = -5) := by
  have h1 : (2 : ℕ) < basepointOrder := by norm_num [basepointOrder]
  have h2 : (3 : ℕ) < basepointOrder := by norm_num [basepointOrder]
  have h3 : basepointOrder • (5 : ZMod basepointOrder) = 0 := by
    rw [nsmul_eq_mul, ZMod.natCast_self, zero_mul]
  exact ⟨⟨h1, h2, h3⟩, mul_double_base_correct 7 5 2 3 h1 h2 h3⟩

/-- C2: the timed diagnostic variant and the efficiency-score variant return
exactly the point of the plain mul entry point on all inputs. -/
theorem diagnostics_preserve_point {G : Type} [AddCommGroup G] (Bpt A : G) (a b : ℕ) :
    mul_timed Bpt a A b = mul Bpt a A b ∧
    (mul_byz_score Bpt a A b).1 = mul Bpt a A b :=
  ⟨byzState_point Bpt A a b, byzState_point Bpt A a b⟩

/-- C3 (amended): the scan finds the greatest index up to 255 at which
either digit sequence is nonzero (ending at 0 when none is); when
a = b = 0 the result is the group identity, but the do-while loop body runs
exactly once (at index 0, with no combine steps), not zero times. -/
theorem startIndex_scan_and_zero_case {G : Type} [AddCommGroup G] (Bpt A : G) (a b : ℕ) :
    (∀ j, startIndex a b < j → j ≤ 255 → nafDigit a 5 j = 0 ∧ nafDigit b 8 j = 0) ∧
    ((nafDigit a 5 (startIndex a b) ≠ 0 ∨ nafDigit b 8 (startIndex a b) ≠ 0) ∨
      startIndex a b = 0) ∧
    (a = 0 → b = 0 → mul Bpt a A b = 0 ∧ (byzState Bpt a A b).2.1 = 1) := by
  have h2 := two_le_basepointOrder
  refine ⟨?_, findStart_hit _ _ 255, ?_⟩
  · intro j hj1 hj2
    exact findStart_above_zero _ _ 255 j hj1 hj2
  · rintro rfl rfl
    refine ⟨?_, ?_⟩
    · rw [mul_eq_smul Bpt A 0 0 (by omega) (by omega)]
      simp
    · rw [byzState_counter, startIndex_zero_zero]

set_option maxRecDepth 20000 in
/-- Counterexample for C3 as stated: with a = b = 0 the loop body of the
source executes once, not zero times — the iteration counter of the
instrumented twin loop ends at 1. -/
theorem zero_scalars_loop_runs_once_cex :
    (byzState (1 : ℤ) 0 0 0).2.1 = 1 ∧ ¬(byzState (1 : ℤ) 0 0 0).2.1 = 0 := by
  decide

/-- Witness for the amended C3 at a = b = 0 over the integers. -/
theorem startIndex_scan_and_zero_case_witness :
    mul (1 : ℤ) 0 0 0 = 0 ∧ (byzState (1 : ℤ) 0 0 0).2.1 = 1 :=
  (startIndex_scan_and_zero_case 1 0 0 0).2.2 rfl rfl

/-- C4: for every scalar s and supported window width w (2 ≤ w ≤ 8), the
NAF encoding round-trips — summing digit i times 2^i over any range
covering the encoding reproduces s exactly. -/
theorem naf_roundtrip (s w n : ℕ) (hw1 : 2 ≤ w) (hw2 : w ≤ 8)
    (hn : (non_adjacent_form s w).length ≤ n) :
    ∑ i in Finset.range n, (non_adjacent_form s w).getD i 0 * 2 ^ i = (s : ℤ) := by
  rw [sum_getD_eq_nafVal _ _ hn, naf_val_eq w hw1]

/-- Witness for C4 at s = 11, w = 3, range 5. -/
theorem naf_roundtrip_witness :
    (2 ≤ 3 ∧ 3 ≤ 8 ∧ (non_adjacent_form 11 3).length ≤ 5) ∧
    ∑ i in Finset.range 5, (non_adjacent_form 11 3).getD i 0 * 2 ^ i = (11 : ℤ) :=
  ⟨⟨by decide, by decide, by decide⟩, naf_roundtrip 11 3 5 (by decide) (by decide) (by decide)⟩

/-- C5: every NAF digit sequence has no two nonzero digits at consecutive
indices, every nonzero digit is odd with magnitude at most 2^(w-1) - 1, and
scalar 0 encodes to the all-zero sequence. -/
theorem naf_invariants (s w : ℕ) (hw1 : 2 ≤ w) (hw2 : w ≤ 8) :
    (∀ i, nafDigit s w i ≠ 0 → nafDigit s w (i + 1) = 0) ∧
    (∀ i, nafDigit s w i ≠ 0 →
      (nafDigit s w i).natAbs % 2 = 1 ∧ (nafDigit s w i).natAbs ≤ 2 ^ (w - 1) - 1) ∧
    (∀ i, nafDigit 0 w i = 0) := by
  refine ⟨?_, ?_, fun i => nafDigit_zero_scalar w i⟩
  · intro i h
    rw [nafDigit_def] at h ⊢
    exact naf_nonadjacent w hw1 s i h
  · intro i h
    exact nafDigit_shape s w i hw1 h

/-- Witness for C5 at s = 7, w = 2. -/
theorem naf_invariants_witness :
    (2 ≤ 2 ∧ 2 ≤ 8) ∧
    ((∀ i, nafDigit 7 2 i ≠ 0 → nafDigit 7 2 (i + 1) = 0) ∧
      (∀ i, nafDigit 7 2 i ≠ 0 →
        (nafDigit 7 2 i).natAbs % 2 = 1 ∧ (nafDigit 7 2 i).natAbs ≤ 2 ^ (2 - 1) - 1) ∧
      (∀ i, nafDigit 0 2 i = 0)) :=
  ⟨⟨by decide, by decide⟩, naf_invariants 7 2 (by decide) (by decide)⟩

/-- C6: the efficiency-score variant reports score = 2 times the iteration
count minus the number of combine steps skipped on zero digits (never more
skips than twice the iterations); when every digit over the loop range is
nonzero the score is exactly twice the iteration count; for a = b = 0 the
single iteration at starting index 0 skips both combine steps, giving
score 2*1 - 2 = 0. -/
theorem byz_score_formula {G : Type} [AddCommGroup G] (Bpt A : G) (a b : ℕ) :
    (mul_byz_score Bpt a A b).2 =
      2 * (startIndex a b + 1) - skippedCount a b (startIndex a b) ∧
    skippedCount a b (startIndex a b) ≤ 2 * (startIndex a b + 1) ∧
    ((∀ j ≤ startIndex a b, nafDigit a 5 j ≠ 0 ∧ nafDigit b 8 j ≠ 0) →
      (mul_byz_score Bpt a A b).2 = 2 * (startIndex a b + 1)) ∧
    (a = 0 → b = 0 →
      startIndex a b = 0 ∧ (byzState Bpt a A b).2.1 = 1 ∧
        (mul_byz_score Bpt a A b).2 = 0) := by
  have hform : (mul_byz_score Bpt a A b).2 =
      2 * (startIndex a b + 1) - skippedCount a b (startIndex a b) := by
    show 2 * (byzState Bpt a A b).2.1 - (byzState Bpt a A b).2.2 = _
    rw [byzState_counter, byzState_skipped]
  have hbound : skippedCount a b (startIndex a b) ≤ 2 * (startIndex a b + 1) := by
    unfold skippedCount
    have hterm : ∀ j ∈ Finset.range (startIndex a b + 1),
        ((if nafDigit a 5 j = 0 then 1 else 0) +
          (if nafDigit b 8 j = 0 then 1 else 0)) ≤ 2 := by
      intro j _
      split_ifs <;> omega
    have hsum := Finset.sum_le_sum hterm
    rw [Finset.sum_const, Finset.card_range, smul_eq_mul] at hsum
    omega
  refine ⟨hform, hbound, ?_, ?_⟩
  · intro hdense
    have hz : skippedCount a b (startIndex a b) = 0 := by
      unfold skippedCount
      refine Finset.sum_eq_zero ?_
      intro j hj
      obtain ⟨h1, h2⟩ := hdense j (by
        have := Finset.mem_range.mp hj
        omega)
      rw [if_neg h1, if_neg h2]
      rfl
    rw [hform, hz]
    omega
  · rintro rfl rfl
    have hz0 : skippedCount 0 0 0 = 2 := by
      unfold skippedCount
      simp [nafDigit_zero_scalar]
    refine ⟨startIndex_zero_zero, ?_, ?_⟩
    · rw [byzState_counter, startIndex_zero_zero]
    · rw [hform, startIndex_zero_zero, hz0]

set_option maxRecDepth 40000 in
/-- Witness for C6 at a = b = 1 over the integers: the two single-digit
encodings are dense on the one-index loop range, so the score is 2. -/
theorem byz_score_formula_witness :
    (∀ j ≤ startIndex 1 1, nafDigit 1 5 j ≠ 0 ∧ nafDigit 1 8 j ≠ 0) ∧
    (mul_byz_score (2 : ℤ) 1 3 1).2 = 2 * (startIndex 1 1 + 1) :=
  ⟨by decide, (byz_score_formula 2 3 1 1).2.2.1 (by decide)⟩

/-- C7: every call of mul terminates with the counted loop executing
exactly startIndex + 1 iterations, which is at most 256; the point of mul
is the point of the counted loop. -/
theorem mul_loop_iteration_bound {G : Type} [AddCommGroup G] (Bpt A : G) (a b : ℕ) :
    mul Bpt a A b = (byzState Bpt a A b).1 ∧
    (byzState Bpt a A b).2.1 = startIndex a b + 1 ∧
    (byzState Bpt a A b).2.1 ≤ 256 := by
  refine ⟨(byzState_point Bpt A a b).symm, byzState_counter Bpt A a b, ?_⟩
  rw [byzState_counter]
  have := startIndex_le_255 a b
  omega

/-- C8: mul is deterministic — two calls with identical inputs return
identical points. -/
theorem mul_deterministic {G : Type} [AddCommGroup G] (Bpt A₁ A₂ : G)
    (a₁ b₁ a₂ b₂ : ℕ) (ha : a₁ = a₂) (hA : A₁ = A₂) (hb : b₁ = b₂) :
    mul Bpt a₁ A₁ b₁ = mul Bpt a₂ A₂ b₂ := by
  subst ha
  subst hA
  subst hb
  rfl

/-- Witness for C8 over the integers. -/
theorem mul_deterministic_witness :
    ((2 : ℕ) = 2 ∧ (3 : ℤ) = 3 ∧ (4 : ℕ) = 4) ∧
    mul (5 : ℤ) 2 3 4 = mul (5 : ℤ) 2 3 4 :=
  ⟨⟨rfl, rfl, rfl⟩, mul_deterministic 5 3 3 2 4 2 4 rfl rfl rfl⟩

/-- C9: mul encodes a with window width 5 and b with window width 8 and
combines against the per-call table of A (8 entries, odd magnitudes 1..15)
and the standing generator table (64 entries, odd magnitudes 1..127); the
entry at slot j is the (2j+1)-th multiple, and selecting an odd in-range
magnitude m yields m times the table's point. -/
theorem mul_windows_and_tables {G : Type} [AddCommGroup G] (Bpt A : G) (a b : ℕ) :
    mul Bpt a A b =
      loopDown
        (mulStep (tableSelect (buildTable A 5)) (tableSelect (buildTable Bpt 8))
          (fun i => nafDigit a 5 i) (fun i => nafDigit b 8 i))
        0 (startIndex a b) ∧
    (buildTable A 5).length = 8 ∧
    (buildTable Bpt 8).length = 64 ∧
    (∀ j < 8, (buildTable A 5).getD j 0 = (2 * j + 1) • A) ∧
    (∀ j < 64, (buildTable Bpt 8).getD j 0 = (2 * j + 1) • Bpt) ∧
    (∀ m, m % 2 = 1 → m ≤ 15 → tableSelect (buildTable A 5) m = m • A) ∧
    (∀ m, m % 2 = 1 → m ≤ 127 → tableSelect (buildTable Bpt 8) m = m • Bpt) := by
  refine ⟨rfl, ?_, ?_, ?_, ?_, ?_, ?_⟩
  · rw [buildTable_length]
    norm_num
  · rw [buildTable_length]
    norm_num
  · intro j hj
    exact buildTable_getD A 5 j (by norm_num; omega)
  · intro j hj
    exact buildTable_getD Bpt 8 j (by norm_num; omega)
  · intro m h1 h2
    exact tableSelect_buildTable A 5 m (by norm_num) h1 (by simpa using h2)
  · intro m h1 h2
    exact tableSelect_buildTable Bpt 8 m (by norm_num) h1 (by simpa using h2)

/-- Witness for C9 over the integers, reading table entry 3 of the window-5
table of A = 3. -/
theorem mul_windows_and_tables_witness :
    (3 < 8) ∧ (buildTable (3 : ℤ) 5).getD 3 0 = (2 * 3 + 1) • (3 : ℤ) :=
  ⟨by decide, (mul_windows_and_tables (2 : ℤ) 3 0 0).2.2.2.1 3 (by decide)⟩

/-- C10: on reduced scalars mul never reaches an out-of-range access — the
starting index (hence every loop index) is at most 255, both digit
sequences fit the 256-entry arrays, and every nonzero digit is an odd
magnitude whose table slot is inside the consulted table (at most 15 and
slot < 8 for the window-5 table of A, at most 127 and slot < 64 for the
window-8 generator table). -/
theorem mul_access_bounds {G : Type} [AddCommGroup G] (Bpt A : G) (a b : ℕ)
    (ha : a < basepointOrder) (hb : b < basepointOrder) :
    startIndex a b ≤ 255 ∧
    (non_adjacent_form a 5).length ≤ 256 ∧
    (non_adjacent_form b 8).length ≤ 256 ∧
    (∀ i, nafDigit a 5 i ≠ 0 →
      (nafDigit a 5 i).natAbs % 2 = 1 ∧ (nafDigit a 5 i).natAbs ≤ 15 ∧
        (nafDigit a 5 i).natAbs / 2 < (buildTable A 5).length) ∧
    (∀ i, nafDigit b 8 i ≠ 0 →
      (nafDigit b 8 i).natAbs % 2 = 1 ∧ (nafDigit b 8 i).natAbs ≤ 127 ∧
        (nafDigit b 8 i).natAbs / 2 < (buildTable Bpt 8).length) := by
  refine ⟨startIndex_le_255 a b, ?_, ?_, ?_, ?_⟩
  · have := naf_length_le_254 a 5 (by norm_num) ha
    omega
  · have := naf_length_le_254 b 8 (by norm_num) hb
    omega
  · intro i h
    obtain ⟨h1, h2⟩ := nafDigit_shape5 a i h
    rw [buildTable_length]
    norm_num at h2 ⊢
    exact ⟨h1, h2, by omega⟩
  · intro i h
    obtain ⟨h1, h2⟩ := nafDigit_shape8 b i h
    rw [buildTable_length]
    norm_num at h2 ⊢
    exact ⟨h1, h2, by omega⟩

/-- Witness for C10 at a = 3, b = 5 over the integers. -/
theorem mul_access_bounds_witness :
    ((3 : ℕ) < basepointOrder ∧ (5 : ℕ) < basepointOrder) ∧
    (startIndex 3 5 ≤ 255 ∧
      (non_adjacent_form 3 5).length ≤ 256 ∧
      (non_adjacent_form 5 8).length ≤ 256 ∧
      (∀ i, nafDigit 3 5 i ≠ 0 →
        (nafDigit 3 5 i).natAbs % 2 = 1 ∧ (nafDigit 3 5 i).natAbs ≤ 15 ∧
          (nafDigit 3 5 i).natAbs / 2 < (buildTable (2 : ℤ) 5).length) ∧
      (∀ i, nafDigit 5 8 i ≠ 0 →
        (nafDigit 5 8 i).natAbs % 2 = 1 ∧ (nafDigit 5 8 i).natAbs ≤ 127 ∧
          (nafDigit 5 8 i).natAbs / 2 < (buildTable (1 : ℤ) 8).length)) := by
  have h1 : (3 : ℕ) < basepointOrder := by norm_num [basepointOrder]
  have h2 : (5 : ℕ) < basepointOrder := by norm_num [basepointOrder]
  exact ⟨⟨h1, h2⟩, mul_access_bounds 1 2 3 5 h1 h2⟩

end VartimeDoubleBase
